import Mathlib

/-!
# Verification of `atmode/public-config`

Two Go programs are embedded:

* `duplicates/main.go`: the line de-duplication utility
  (`findDuplicates`, `removeDuplicates`);
* `pingTest/pingTest.go`: the config validation pipeline
  (`main`, `testXrayConfig`, `createTempConfig`).

Go strings are embedded as Lean `String`s (the decoded rune sequence of the
text), a Go `map[string]bool` as an association list with the zero value
`false` for a missing key, and everything the programs get from the operating
system (clock, file system, child processes) is an explicit argument.
-/

namespace PublicConfig

/-! ## Go `map[string]bool` -/

/-- A Go `map[string]bool`: the bindings, most recent first. -/
abbrev BoolMap := List (String × Bool)

/-- The map `make(map[string]bool)`. -/
def BoolMap.make : BoolMap := []

/-- The index expression `m[k]`: the bound value, `false` when `k` is missing. -/
def BoolMap.get (m : BoolMap) (k : String) : Bool :=
  match m with
  | [] => false
  | (k', v) :: rest => if k' = k then v else BoolMap.get rest k

/-- The assignment `m[k] = v`. -/
def BoolMap.set (m : BoolMap) (k : String) (v : Bool) : BoolMap :=
  (k, v) :: m

/-- The map holds `true` exactly at the members of `pre`. -/
def BoolMap.Tracks (m : BoolMap) (pre : List String) : Prop :=
  ∀ k, m.get k = true ↔ k ∈ pre

/-! ## `duplicates/main.go` -/

namespace Duplicates

/-- The inner loop of `findDuplicates`: `count++` for every `otherLine` equal
to `line`, starting from `count`. -/
def countLoop (line : String) : List String → Nat → Nat
  | [], count => count
  | otherLine :: rest, count =>
      if line = otherLine then countLoop line rest (count + 1)
      else countLoop line rest count

/-- The arguments of one `fmt.Printf("Duplicate found: ...")` call. -/
structure Report where
  line : String
  count : Nat
deriving DecidableEq, Repr

/-- The text `fmt.Printf("Duplicate found: \"%s\" - %d occurrences\n", line, count)`
prints. -/
def Report.text (r : Report) : String :=
  "Duplicate found: \"" ++ r.line ++ "\" - " ++ toString r.count ++ " occurrences\n"

/-- The outer loop of `findDuplicates` over the remaining lines `todo`; `lines`
is the whole slice (scanned by the inner loop), `processed` the map and `out`
the reports printed so far. -/
def findDuplicatesLoop (lines : List String) :
    List String → BoolMap → List Report → List Report
  | [], _, out => out
  | line :: rest, processed, out =>
      if processed.get line then
        findDuplicatesLoop lines rest processed out
      else
        let processed := processed.set line true
        let count := countLoop line lines 0
        if count > 1 then
          findDuplicatesLoop lines rest processed (out ++ [⟨line, count⟩])
        else
          findDuplicatesLoop lines rest processed out

/-- The reports `findDuplicates(lines)` prints, in printing order. -/
def findDuplicates (lines : List String) : List Report :=
  findDuplicatesLoop lines lines BoolMap.make []

/-- What `findDuplicates(lines)` writes to standard output. -/
def findDuplicatesStdout (lines : List String) : String :=
  String.join ((findDuplicates lines).map Report.text)

/-- The first loop of `removeDuplicates`: `uniqueLines` is the map, `result`
the slice built so far. -/
def removeDuplicatesLoop : List String → BoolMap → List String → List String
  | [], _, result => result
  | line :: rest, uniqueLines, result =>
      if !uniqueLines.get line then
        removeDuplicatesLoop rest (uniqueLines.set line true) (result ++ [line])
      else
        removeDuplicatesLoop rest uniqueLines result

/-- The slice `result` of `removeDuplicates(lines, _)`: the lines it writes to
the de-duplicated copy. -/
def removeDuplicates (lines : List String) : List String :=
  removeDuplicatesLoop lines BoolMap.make []

/-- The bytes `removeDuplicates` writes to the new file: `fmt.Fprintln` of
every line of `result`. -/
def removeDuplicatesFile (lines : List String) : String :=
  String.join ((removeDuplicates lines).map (fun line => line ++ "\n"))

/-- Specification side: the subsequence of `l` that keeps position `i` exactly
when `l[i]` does not occur among the earlier positions, that is the first
occurrence of each distinct line. -/
def firstOccurrences (l : List String) : List String :=
  (l.enum.filter (fun p => decide (p.2 ∉ l.take p.1))).map Prod.snd

/-- Auxiliary form of `firstOccurrences`: the lines of the second list that
occur neither in `pre` nor earlier in the list itself. -/
def firstOccFrom (pre : List String) : List String → List String
  | [] => []
  | x :: xs =>
      if x ∈ pre then firstOccFrom (pre ++ [x]) xs
      else x :: firstOccFrom (pre ++ [x]) xs

end Duplicates

/-! ## Go library functions used by `pingTest/pingTest.go` -/

/-- Go's `unicode.IsSpace`: the Latin-1 spaces `\t \n \v \f \r`, space, U+0085,
U+00A0, and the other code points with the White_Space property. -/
def isSpace (c : Char) : Bool :=
  let n := c.toNat
  (9 ≤ n && n ≤ 13) || n = 0x20 || n = 0x85 || n = 0xA0 || n = 0x1680 ||
  (0x2000 ≤ n && n ≤ 0x200A) || n = 0x2028 || n = 0x2029 || n = 0x202F ||
  n = 0x205F || n = 0x3000

/-- Go's `strings.TrimSpace`: the string without its leading and trailing
white space. -/
def TrimSpace (s : String) : String :=
  ⟨((s.data.dropWhile isSpace).reverse.dropWhile isSpace).reverse⟩

namespace Filepath

/-- The elements of a path between its separators (`strings.Split(path, "/")`). -/
def splitSep : List Char → List (List Char)
  | [] => [[]]
  | c :: cs =>
      if c = '/' then [] :: splitSep cs
      else
        match splitSep cs with
        | [] => [[c]]
        | e :: es => (c :: e) :: es

/-- The elements joined by separators (`strings.Join(elems, "/")`). -/
def joinSep : List (List Char) → List Char
  | [] => []
  | [a] => a
  | a :: b :: rest => a ++ '/' :: joinSep (b :: rest)

/-- One step of `Clean` over the path elements; `stack` holds the elements kept
so far, last one first. Empty elements and `.` are dropped; `..` removes the
element before it when that is not itself `..`, is dropped at the root of a
rooted path and is kept otherwise. -/
def cleanStep (rooted : Bool) (stack : List (List Char)) (e : List Char) :
    List (List Char) :=
  if e = [] ∨ e = ['.'] then stack
  else if e = ['.', '.'] then
    match stack with
    | [] => if rooted then [] else [e]
    | top :: rest => if top = ['.', '.'] then e :: stack else rest
  else e :: stack

/-- The path text of the kept elements. -/
def render (rooted : Bool) (stack : List (List Char)) : List Char :=
  if rooted then '/' :: joinSep stack.reverse
  else if stack = [] then ['.']
  else joinSep stack.reverse

/-- Go's `filepath.Clean` on Unix, on the characters of the path. -/
def cleanChars (path : List Char) : List Char :=
  let rooted := path.head? = some '/'
  render rooted ((splitSep path).foldl (cleanStep rooted) [])

/-- Go's `filepath.Clean` on Unix. -/
def Clean (path : String) : String := ⟨cleanChars path.data⟩

/-- The path up to and including its last separator (empty without one). -/
def dirPrefix (path : List Char) : List Char :=
  (path.reverse.dropWhile (fun c => c ≠ '/')).reverse

/-- Go's `filepath.Dir` on Unix: `Clean` of the path up to and including its
last separator. -/
def Dir (path : String) : String :=
  ⟨cleanChars (dirPrefix path.data)⟩

/-- The last element of a path after its trailing separators are removed. -/
def lastElem (path : List Char) : List Char :=
  ((path.reverse.dropWhile (fun c => c = '/')).takeWhile (fun c => c ≠ '/')).reverse

/-- Go's `filepath.Base` on Unix: the last element of the path after its
trailing separators are removed; `.` for the empty path and `/` for a path of
separators only. -/
def Base (path : String) : String :=
  if path = "" then "."
  else
    let last := lastElem path.data
    if last = [] then "/" else ⟨last⟩

/-- Go's `filepath.Join` on Unix: `Clean` of the elements from the first
non-empty one on, joined by separators; the empty string when all are empty. -/
def Join : List String → String
  | [] => ""
  | e :: rest =>
      if e ≠ "" then Clean ⟨joinSep ((e :: rest).map String.data)⟩
      else Join rest

/-- An ordinary path element: not empty, without separator, and neither `.`
nor `..`. -/
def IsName (e : List Char) : Prop := e ≠ [] ∧ '/' ∉ e ∧ e ≠ ['.'] ∧ e ≠ ['.', '.']

/-- The stacks `Clean` produces: ordinary elements above a run of `..`
elements, which is empty for a rooted path. -/
def Normal (rooted : Bool) : List (List Char) → Prop
  | [] => True
  | top :: rest =>
      (IsName top ∧ Normal rooted rest) ∨
      (top = ['.', '.'] ∧ rooted = false ∧ ∀ x ∈ rest, x = ['.', '.'])

end Filepath

/-! ### IEEE 754 binary64 -/

/-- A Go `float64`: `finite neg m e` is `(-1)^neg * m * 2^e`. -/
inductive F64 where
  | finite (neg : Bool) (mant : Nat) (exp : Int)
  | inf (neg : Bool)
  | nan
deriving DecidableEq, Repr

namespace F64

/-- Number of binary digits of `n` (`0` has one). -/
def bitLen (n : Nat) : Nat := (Nat.toDigits 2 n).length

/-- The integer nearest to `n / d`, ties to the even one. -/
def roundHalfEven (n d : Nat) : Nat :=
  let q := n / d
  let r := n % d
  if 2 * r < d then q
  else if d < 2 * r then q + 1
  else if q % 2 = 0 then q else q + 1

/-- Numerator of `(n / d) / 2^e`. -/
def scaledNum (n : Nat) (e : Int) : Nat := if e < 0 then n * 2 ^ (-e).toNat else n

/-- Denominator of `(n / d) / 2^e`. -/
def scaledDen (d : Nat) (e : Int) : Nat := if e < 0 then d else d * 2 ^ e.toNat

/-- The binary64 value nearest to `(-1)^neg * n / d` (`d > 0`), round to nearest,
ties to even: a 53-bit significand, exponent at least `-1074` (subnormals), and
infinity from `2^1024` on. -/
def round (neg : Bool) (n d : Nat) : F64 :=
  if n = 0 then finite neg 0 0
  else
    let e1 : Int := (bitLen n : Int) - (bitLen d : Int) - 52
    let e2 : Int := if scaledNum n e1 / scaledDen d e1 < 2 ^ 52 then e1 - 1 else e1
    let e : Int := max e2 (-1074)
    let m := roundHalfEven (scaledNum n e) (scaledDen d e)
    if 971 < e ∨ (e = 971 ∧ 2 ^ 53 ≤ m) then inf neg else finite neg m e

/-- The `float64` product `x * y`. -/
def mul : F64 → F64 → F64
  | finite s1 m1 e1, finite s2 m2 e2 =>
      round (xor s1 s2) (scaledNum (m1 * m2) (-(e1 + e2))) (scaledDen 1 (-(e1 + e2)))
  | finite s1 m1 _, inf s2 => if m1 = 0 then nan else inf (xor s1 s2)
  | inf s1, finite s2 m2 _ => if m2 = 0 then nan else inf (xor s1 s2)
  | inf s1, inf s2 => inf (xor s1 s2)
  | nan, _ => nan
  | _, nan => nan

/-- The constant `1000` as a `float64`. -/
def thousand : F64 := finite false 1000 0

/-- The Go conversion `int(x)` on a 64-bit platform: the fractional part is
discarded (truncation towards zero); when the value does not fit `int` the
result is implementation-dependent and is taken from `outOfRange`. -/
def toInt (outOfRange : Int) : F64 → Int
  | finite neg m e =>
      let t : Nat := scaledNum m (-e) / scaledDen 1 (-e)
      let v : Int := if neg then -(t : Int) else (t : Int)
      if -(2 : Int) ^ 63 ≤ v ∧ v < (2 : Int) ^ 63 then v else outOfRange
  | inf _ => outOfRange
  | nan => outOfRange

/-- The value of a string of decimal digits, `none` when a character is not a
digit. -/
def digitsValue : List Char → Nat → Option Nat
  | [], acc => some acc
  | c :: cs, acc =>
      if 48 ≤ c.toNat ∧ c.toNat ≤ 57 then digitsValue cs (acc * 10 + (c.toNat - 48))
      else none

/-- A plain decimal literal `[+-]digits[.digits]` with at least one digit:
its sign, the value of its digits read as one integer, and the number of
digits after the point. -/
def parsePlainDecimal (cs : List Char) : Option (Bool × Nat × Nat) :=
  let neg := cs.head? = some '-'
  let body := if cs.head? = some '-' ∨ cs.head? = some '+' then cs.tail else cs
  let intPart := body.takeWhile (fun c => c ≠ '.')
  let rest := body.dropWhile (fun c => c ≠ '.')
  let fracPart := rest.tail
  if intPart ++ fracPart = [] then none
  else
    match digitsValue (intPart ++ fracPart) 0 with
    | none => none
    | some n => some (neg, n, fracPart.length)

end F64

/-- Go's `strconv.ParseFloat(s, 64)`. On a plain decimal literal the result is
the nearest `float64` (IEEE 754 unbiased rounding), and a range error when that
is infinite; on every other string (exponents, hexadecimal, `inf`, `nan`,
malformed text) the library's result is the argument `other`. -/
def ParseFloat (other : String → Except String F64) (s : String) : Except String F64 :=
  match F64.parsePlainDecimal s.data with
  | some (neg, n, k) =>
      match F64.round neg n (10 ^ k) with
      | F64.finite sg m e => .ok (F64.finite sg m e)
      | _ => .error ("strconv.ParseFloat: parsing \"" ++ s ++ "\": value out of range")
  | none => other s

/-! ## `pingTest/pingTest.go` -/

namespace PingTest

deriving instance DecidableEq for Except

/-- The constant `xrayPath`. -/
def xrayPath : String := "xray"

/-- The constant `tempConfigDir`. -/
def tempConfigDir : String := "temp_config"

/-- Where the proxy engine process of the current trial stands. -/
inductive Phase where
  | NotStarted
  | Starting
  | EarlyExited
  | Running
  | Stopped
deriving DecidableEq, Repr

/-- The state a trial acts on: the file system (path to content), the phase of
the trial's proxy process, and whether cancellation of the trial's context has
been requested. -/
structure Sys where
  files : String → Option String
  phase : Phase
  ctxCancelled : Bool

/-- What the operating system and the external programs do during one trial. -/
structure Env where
  /-- The value of `time.Now().UnixNano()` in `createTempConfig`. -/
  now : Int
  /-- The error of `os.WriteFile`, `none` when the file was written. -/
  writeFileErr : Option String
  /-- The error of `cmd.StderrPipe()`, `none` on success. -/
  stderrPipeErr : Option String
  /-- The error of `cmd.Start()`, `none` when the process was started. -/
  startErr : Option String
  /-- Whether the started process has exited when the one-second sleep ends. -/
  exitedInGrace : Bool
  /-- What `io.ReadAll(stderr)` returns. -/
  stderrOutput : String
  /-- The result of `pingCmd.Output()`: curl's standard output, or the error. -/
  probe : Except String String
  /-- The result of `strconv.ParseFloat` outside the plain decimal literals. -/
  parseFloatOther : String → Except String F64
  /-- The implementation-dependent result of `int(x)` when `x` does not fit. -/
  intOutOfRange : Int

/-- The Go type `os.ProcessState`, as far as `Exited()` reads it. -/
structure ProcessState where
  exited : Bool
deriving DecidableEq, Repr

/-- The fields of `exec.Cmd` the program uses. `ProcessState` is `nil` (`none`)
in a new command. The library documents the field as "ProcessState contains
information about an exited process. If the process was started successfully,
Wait or Run will populate its ProcessState when the command completes": it is
assigned in `Wait` (which `Run` calls) and nowhere else. -/
structure Cmd where
  Path : String
  Args : List String
  started : Bool
  ProcessState : Option ProcessState
deriving DecidableEq, Repr

/-- The call `exec.CommandContext(ctx, name, args...)`. -/
def CommandContext (name : String) (args : List String) : Cmd :=
  { Path := name, Args := name :: args, started := false, ProcessState := none }

/-- The call `context.WithCancel(context.Background())`: a new context, not yet
cancelled, and with it a trial whose process is not started. -/
def withCancel (s : Sys) : Sys :=
  { s with ctxCancelled := false, phase := Phase.NotStarted }

/-- The call `cmd.Start()`: on success the process runs (phase `Starting`) and
the command is marked started; `ProcessState` is left as it was, since `Start`
does not wait for the process. -/
def Cmd.Start (env : Env) (cmd : Cmd) (s : Sys) : Except String Cmd × Sys :=
  match env.startErr with
  | some err => (.error err, s)
  | none => (.ok { cmd with started := true }, { s with phase := Phase.Starting })

/-- The call `time.Sleep(1 * time.Second)` after the start: when it returns the
process has exited or is running. -/
def sleepGrace (env : Env) (s : Sys) : Sys :=
  { s with phase := if env.exitedInGrace then Phase.EarlyExited else Phase.Running }

/-- The call `cancel()` of the trial's context: cancellation is requested, which
stops the process when one was started. -/
def cancel (s : Sys) : Sys :=
  { s with
    ctxCancelled := true
    phase := if s.phase = Phase.NotStarted then Phase.NotStarted else Phase.Stopped }

/-- The call `os.Remove(path)`. -/
def osRemove (path : String) (s : Sys) : Sys :=
  { s with files := fun q => if q = path then none else s.files q }

/-- The call `os.WriteFile(path, data, 0644)` when it succeeds. -/
def osWriteFile (path data : String) (s : Sys) : Sys :=
  { s with files := fun q => if q = path then some data else s.files q }

/-- The Go function `createTempConfig`: the path
`temp_config/config_<nanoseconds>.json` and the file written there, or the
error of `os.WriteFile`. -/
def createTempConfig (env : Env) (s : Sys) (configLine : String) :
    Except String String × Sys :=
  let configFilePath :=
    Filepath.Join [tempConfigDir, "config_" ++ toString env.now ++ ".json"]
  match env.writeFileErr with
  | some err => (.error err, s)
  | none => (.ok configFilePath, osWriteFile configFilePath configLine s)

/-- The condition `cmd.ProcessState != nil && cmd.ProcessState.Exited()`. -/
def Cmd.exitedEarly (cmd : Cmd) : Bool :=
  match cmd.ProcessState with
  | none => false
  | some ps => ps.exited

/-- The body of `testXrayConfig` after `defer cancel()`, up to its `return`;
the deferred calls are run by `testXrayConfig`. -/
def testXrayConfigBody (env : Env) (configFile : String) (s : Sys) :
    Except String Int × Sys :=
  let cmd := CommandContext xrayPath ["-c", configFile]
  match env.stderrPipeErr with
  | some err => (.error ("failed to get stderr pipe: " ++ err), s)
  | none =>
    match cmd.Start env s with
    | (.error err, s) => (.error ("failed to start Xray: " ++ err), s)
    | (.ok cmd, s) =>
      let s := sleepGrace env s
      if cmd.exitedEarly then
        (.error ("Xray exited early: " ++ env.stderrOutput), s)
      else
        match env.probe with
        | .error err => (.error ("connection test failed: " ++ err), cancel s)
        | .ok output =>
          let pingTimeStr := TrimSpace output
          match ParseFloat env.parseFloatOther pingTimeStr with
          | .error err => (.error ("failed to parse ping time: " ++ err), cancel s)
          | .ok pingTimeFloat =>
            let pingTimeMs := F64.toInt env.intOutOfRange (F64.mul pingTimeFloat F64.thousand)
            (.ok pingTimeMs, cancel s)

/-- The Go function `testXrayConfig`: the ping time in milliseconds or the
error, and the state it leaves. The deferred calls run at every return after
their `defer` statement, last one first: `cancel()`, then
`os.Remove(configFile)`. -/
def testXrayConfig (env : Env) (s : Sys) (configLine : String) :
    Except String Int × Sys :=
  match createTempConfig env s configLine with
  | (.error err, s) => (.error ("failed to create config: " ++ err), s)
  | (.ok configFile, s) =>
    let (r, s) := testXrayConfigBody env configFile (withCancel s)
    (r, osRemove configFile (cancel s))

/-- The variables of the loop of `main`: `lineNum`, `workingConfigs`, the bytes
given to `writer`, and the state `world` the trials act on. -/
structure LoopState (σ : Type) where
  lineNum : Nat
  workingConfigs : Nat
  writer : String
  world : σ

/-- The loop `for scanner.Scan() { ... }` of `main` over the lines the scanner
yields; `test` is `testXrayConfig` acting on the state `σ`. The progress
messages printed in the loop are not part of the state. -/
def mainLoop {σ : Type} (test : σ → String → Except String Int × σ) :
    List String → LoopState σ → LoopState σ
  | [], st => st
  | configLine :: rest, st =>
      let st := { st with lineNum := st.lineNum + 1 }
      if TrimSpace configLine = "" then mainLoop test rest st
      else
        match test st.world configLine with
        | (.error _, w) =>
            mainLoop test rest { st with world := w }
        | (.ok _, w) =>
            mainLoop test rest
              { st with
                world := w
                writer := st.writer ++ (configLine ++ "\n")
                workingConfigs := st.workingConfigs + 1 }

/-- The path of the output file computed by `main`. -/
def outputPath (configFilePath : String) : String :=
  Filepath.Join
    [Filepath.Dir configFilePath, "working_" ++ Filepath.Base configFilePath]

/-- What a run of `main` leaves: the output path and the content of the output
file after `writer.Flush()`, the two numbers of the summary line
(`"Testing complete: %d configs tested, %d working configs"`), and the final
state. -/
structure MainResult (σ : Type) where
  outputPath : String
  outputFile : String
  testedCount : Nat
  workingCount : Nat
  world : σ

/-- The Go function `main` on the input file `configFilePath` holding `lines`,
when the temporary directory, the input file and the output file could be
opened. -/
def main {σ : Type} (test : σ → String → Except String Int × σ) (w : σ)
    (configFilePath : String) (lines : List String) : MainResult σ :=
  let st := mainLoop test lines
    { lineNum := 0, workingConfigs := 0, writer := "", world := w }
  { outputPath := outputPath configFilePath
    outputFile := st.writer
    testedCount := st.lineNum
    workingCount := st.workingConfigs
    world := st.world }

/-- The summary line `main` prints. -/
def summaryLine {σ : Type} (r : MainResult σ) : String :=
  "Testing complete: " ++ toString r.testedCount ++ " configs tested, " ++
    toString r.workingCount ++ " working configs\n"

/-- Whether a trial succeeded (`err == nil`). -/
def succeeded (r : Except String Int) : Bool :=
  match r with
  | .ok _ => true
  | .error _ => false

/-- A trial whose outcome depends on the config line only. -/
def pureTrial (f : String → Except String Int) : Unit → String → Except String Int × Unit :=
  fun u line => (f line, u)

/-- A trial that records its invocations: it acts as `test` on the first
component of the state and appends the config line it is called with to the
second. -/
def loggingTrial {σ : Type} (test : σ → String → Except String Int × σ) :
    σ × List String → String → Except String Int × (σ × List String) :=
  fun wl configLine =>
    ((test wl.1 configLine).1, ((test wl.1 configLine).2, wl.2 ++ [configLine]))

/-- Whether a line is skipped by `main` (`strings.TrimSpace(configLine) == ""`). -/
def isBlank (line : String) : Bool := decide (TrimSpace line = "")

/-- The path `createTempConfig` gives the temporary file of a trial. -/
def tempConfigPath (env : Env) : String :=
  Filepath.Join [tempConfigDir, "config_" ++ toString env.now ++ ".json"]

/-- Whether the proxy process of the trial was started: the temporary file was
written, the stderr pipe was obtained and `cmd.Start()` succeeded. -/
def processStarted (env : Env) : Prop :=
  env.writeFileErr = none ∧ env.stderrPipeErr = none ∧ env.startErr = none

/-- A state with an empty file system. -/
def emptySys : Sys :=
  { files := fun _ => none, phase := Phase.NotStarted, ctxCancelled := false }

/-- A trial in which the proxy engine starts, exits within the grace period
with a diagnostic on its error stream, and the probe nevertheless succeeds (the
SOCKS port is served by another process) in half a second. -/
def earlyExitEnv : Env :=
  { now := 1700000000000000000
    writeFileErr := none
    stderrPipeErr := none
    startErr := none
    exitedInGrace := true
    stderrOutput := "Failed to start: invalid config"
    probe := .ok "0.5"
    parseFloatOther := fun _ => .error "invalid syntax"
    intOutOfRange := -9223372036854775808 }

/-- A trial in which the proxy engine runs and curl prints `1.001`. -/
def latencyEnv : Env :=
  { now := 1700000000000000000
    writeFileErr := none
    stderrPipeErr := none
    startErr := none
    exitedInGrace := false
    stderrOutput := ""
    probe := .ok "1.001"
    parseFloatOther := fun _ => .error "invalid syntax"
    intOutOfRange := -9223372036854775808 }

end PingTest

/-! ## Lemmas on the map model -/

theorem BoolMap.get_make (k : String) : BoolMap.make.get k = false := rfl

theorem BoolMap.get_set_true (m : BoolMap) (k k' : String) :
    (m.set k true).get k' = (decide (k = k') || m.get k') := by
  unfold BoolMap.set
  rw [BoolMap.get]
  by_cases h : k = k' <;> simp [h]

theorem BoolMap.tracks_make : BoolMap.make.Tracks [] := by
  intro k; simp [BoolMap.get_make]

theorem BoolMap.Tracks.set {m : BoolMap} {pre : List String} (h : m.Tracks pre)
    (k : String) : (m.set k true).Tracks (pre ++ [k]) := by
  intro k'
  rw [BoolMap.get_set_true]
  have := h k'
  simp only [Bool.or_eq_true, decide_eq_true_eq, List.mem_append, List.mem_singleton]
  constructor
  · rintro (h1 | h1)
    · exact Or.inr h1.symm
    · exact Or.inl (this.1 h1)
  · rintro (h1 | h1)
    · exact Or.inr (this.2 h1)
    · exact Or.inl h1.symm

namespace Duplicates

/-! ## Lemmas on the de-duplication utility -/

theorem countLoop_eq (line : String) (l : List String) (c : Nat) :
    countLoop line l c = c + l.count line := by
  induction l generalizing c with
  | nil => simp [countLoop]
  | cons x xs ih =>
    by_cases h : line = x
    · subst h
      simp [countLoop, ih]; omega
    · have h' : ¬ x = line := fun e => h e.symm
      simp [countLoop, h, ih, List.count_cons, h']

theorem firstOccurrences_aux (pre todo : List String) :
    (((todo.enumFrom pre.length).filter
        (fun p => decide (p.2 ∉ (pre ++ todo).take p.1))).map Prod.snd)
      = firstOccFrom pre todo := by
  induction todo generalizing pre with
  | nil => simp [firstOccFrom]
  | cons x xs ih =>
    have h1 : (pre ++ x :: xs) = (pre ++ [x]) ++ xs := by simp
    have h2 : pre.length + 1 = (pre ++ [x]).length := by simp
    have ih' := ih (pre ++ [x])
    rw [← h1, ← h2] at ih'
    rw [List.enumFrom_cons, List.filter_cons]
    have h3 : (pre ++ x :: xs).take pre.length = pre := by simp
    by_cases hx : x ∈ pre
    · simp only [h3, hx, not_true_eq_false, decide_False, firstOccFrom, if_true]
      simpa using ih'
    · simp only [h3, hx, not_false_eq_true, decide_True, firstOccFrom, if_true, if_false,
        List.map_cons]
      rw [ih']

theorem firstOccurrences_eq (l : List String) :
    firstOccurrences l = firstOccFrom [] l := by
  have := firstOccurrences_aux [] l
  simpa [firstOccurrences, List.enum] using this

theorem mem_firstOccFrom (pre l : List String) (x : String) :
    x ∈ firstOccFrom pre l ↔ x ∈ l ∧ x ∉ pre := by
  induction l generalizing pre with
  | nil => simp [firstOccFrom]
  | cons y ys ih =>
    by_cases hy : y ∈ pre
    · simp only [firstOccFrom, hy, if_true, ih, List.mem_append, List.mem_singleton,
        List.mem_cons, not_or, List.not_mem_nil, or_false]
      constructor
      · rintro ⟨h1, h2, _⟩
        exact ⟨Or.inr h1, h2⟩
      · rintro ⟨h1 | h1, h2⟩
        · subst h1; exact absurd hy h2
        · exact ⟨h1, h2, fun e => h2 (e ▸ hy)⟩
    · simp only [firstOccFrom, hy, if_false, List.mem_cons, ih, List.mem_append,
        List.mem_singleton, not_or, List.not_mem_nil, or_false]
      constructor
      · rintro (h1 | ⟨h1, h2, _⟩)
        · subst h1; exact ⟨Or.inl rfl, hy⟩
        · exact ⟨Or.inr h1, h2⟩
      · rintro ⟨h1, h2⟩
        by_cases e : x = y
        · exact Or.inl e
        · rcases h1 with h1 | h1
          · exact absurd h1 e
          · exact Or.inr ⟨h1, h2, e⟩

theorem nodup_firstOccFrom (pre l : List String) : (firstOccFrom pre l).Nodup := by
  induction l generalizing pre with
  | nil => simp [firstOccFrom]
  | cons y ys ih =>
    by_cases hy : y ∈ pre
    · simp only [firstOccFrom, hy, if_true]; exact ih _
    · simp only [firstOccFrom, hy, if_false, List.nodup_cons]
      refine ⟨?_, ih _⟩
      rw [mem_firstOccFrom]
      simp

theorem sublist_firstOccFrom (pre l : List String) : (firstOccFrom pre l).Sublist l := by
  induction l generalizing pre with
  | nil => simp [firstOccFrom]
  | cons y ys ih =>
    by_cases hy : y ∈ pre
    · simp only [firstOccFrom, hy, if_true]
      exact (ih _).cons _
    · simp only [firstOccFrom, hy, if_false]
      exact (ih _).cons₂ _

theorem firstOccFrom_of_nodup (pre r : List String) (hd : ∀ x ∈ r, x ∉ pre)
    (hn : r.Nodup) : firstOccFrom pre r = r := by
  induction r generalizing pre with
  | nil => simp [firstOccFrom]
  | cons y ys ih =>
    have hy : y ∉ pre := hd y (List.mem_cons_self _ _)
    rw [List.nodup_cons] at hn
    simp only [firstOccFrom, hy, if_false]
    rw [ih (pre ++ [y]) ?_ hn.2]
    intro x hx
    simp only [List.mem_append, List.mem_singleton, not_or]
    refine ⟨hd x (List.mem_cons_of_mem _ hx), ?_⟩
    rintro rfl
    exact hn.1 hx

theorem removeDuplicatesLoop_eq (todo : List String) (u : BoolMap) (pre result : List String)
    (h : u.Tracks pre) :
    removeDuplicatesLoop todo u result = result ++ firstOccFrom pre todo := by
  induction todo generalizing u pre result with
  | nil => simp [removeDuplicatesLoop, firstOccFrom]
  | cons x xs ih =>
    by_cases hx : x ∈ pre
    · have hg : u.get x = true := (h x).2 hx
      simp only [removeDuplicatesLoop, hg, Bool.not_true, firstOccFrom, hx, if_true]
      rw [if_neg (by simp)]
      apply ih
      intro k
      rw [h k]
      simp only [List.mem_append, List.mem_singleton]
      constructor
      · exact Or.inl
      · rintro (h1 | h1)
        · exact h1
        · exact h1 ▸ hx
    · have hg : u.get x = false := by
        cases hb : u.get x with
        | false => rfl
        | true => exact absurd ((h x).1 hb) hx
      simp only [removeDuplicatesLoop, hg, Bool.not_false, if_true, firstOccFrom, hx, if_false]
      rw [ih _ _ _ (h.set x)]
      simp

theorem removeDuplicates_eq (lines : List String) :
    removeDuplicates lines = firstOccFrom [] lines := by
  unfold removeDuplicates
  rw [removeDuplicatesLoop_eq lines _ [] [] BoolMap.tracks_make]
  simp

theorem findDuplicatesLoop_eq (lines todo : List String) (u : BoolMap)
    (pre : List String) (out : List Report) (h : u.Tracks pre) :
    findDuplicatesLoop lines todo u out
      = out ++ ((firstOccFrom pre todo).filter (fun l => decide (1 < lines.count l))).map
          (fun l => ⟨l, lines.count l⟩) := by
  induction todo generalizing u pre out with
  | nil => simp [findDuplicatesLoop, firstOccFrom]
  | cons x xs ih =>
    by_cases hx : x ∈ pre
    · have hg : u.get x = true := (h x).2 hx
      simp only [findDuplicatesLoop, hg, if_true, firstOccFrom, hx]
      apply ih
      intro k
      rw [h k]
      simp only [List.mem_append, List.mem_singleton]
      constructor
      · exact Or.inl
      · rintro (h1 | h1)
        · exact h1
        · exact h1 ▸ hx
    · have hg : u.get x = false := by
        cases hb : u.get x with
        | false => rfl
        | true => exact absurd ((h x).1 hb) hx
      simp only [findDuplicatesLoop, hg, firstOccFrom, hx, if_false, countLoop_eq,
        Nat.zero_add, Bool.false_eq_true]
      by_cases hc : 1 < List.count x lines
      · rw [if_pos (by simpa using hc), ih _ _ _ (h.set x), List.filter_cons]
        simp [hc]
      · rw [if_neg (by simpa using hc), ih _ _ _ (h.set x), List.filter_cons]
        simp [hc]

end Duplicates

/-! ## The library models on the examples of the Go documentation -/

namespace Filepath

/-- The examples of `filepath.Base` in the Go documentation. -/
theorem base_examples :
    Base "/foo/bar/baz.js" = "baz.js" ∧ Base "/foo/bar/baz" = "baz" ∧
    Base "/foo/bar/baz/" = "baz" ∧ Base "dev.txt" = "dev.txt" ∧
    Base "../todo.txt" = "todo.txt" ∧ Base ".." = ".." ∧ Base "." = "." ∧
    Base "/" = "/" ∧ Base "" = "." := by
  decide

/-- The examples of `filepath.Dir` in the Go documentation. -/
theorem dir_examples :
    Dir "/foo/bar/baz.js" = "/foo/bar" ∧ Dir "/foo/bar/baz" = "/foo/bar" ∧
    Dir "/foo/bar/baz/" = "/foo/bar/baz" ∧ Dir "/dirty//path///" = "/dirty/path" ∧
    Dir "dev.txt" = "." ∧ Dir "../todo.txt" = ".." ∧ Dir ".." = "." ∧ Dir "." = "." ∧
    Dir "/" = "/" ∧ Dir "" = "." := by
  decide

/-- The examples of `filepath.Join` in the Go documentation. -/
theorem join_examples :
    Join ["a", "b", "c"] = "a/b/c" ∧ Join ["a", "b/c"] = "a/b/c" ∧
    Join ["a/b", "c"] = "a/b/c" ∧ Join ["a/b", "/c"] = "a/b/c" ∧
    Join ["a/b", "../../../xyz"] = "../xyz" ∧ Join ["", ""] = "" ∧
    Join ["", "a"] = "a" := by
  decide

/-- Cases of the table `cleantests` of the Go library. -/
theorem clean_examples :
    Clean "abc" = "abc" ∧ Clean "" = "." ∧ Clean "abc/" = "abc" ∧
    Clean "abc//def//ghi" = "abc/def/ghi" ∧ Clean "//abc" = "/abc" ∧
    Clean "abc/./def" = "abc/def" ∧ Clean "/./abc/def" = "/abc/def" ∧
    Clean "abc/def/ghi/../jkl" = "abc/def/jkl" ∧ Clean "abc/def/../../.." = ".." ∧
    Clean "/abc/def/../../.." = "/" ∧
    Clean "abc/def/../../../ghi/jkl/../../../mno" = "../../mno" ∧
    Clean "/../abc" = "/abc" ∧ Clean "abc/./../def" = "def" ∧
    Clean "abc//./../def" = "def" ∧ Clean "abc/../../././../def" = "../../def" := by
  decide

end Filepath

namespace F64

/-- The `float64` values of the literals `1.001`, `0.1`, `0.253417` and
`123456789.123456789`. -/
theorem round_examples :
    round false 1001 1000 = finite false 4508103226997866 (-52) ∧
    round false 1 10 = finite false 7205759403792794 (-56) ∧
    round false 253417 1000000 = finite false 4565154827077396 (-54) ∧
    round false 123456789123456789 (10 ^ 9) = finite false 8285044871162741 (-26) := by
  decide

/-- The product `1.001 * 1000` in `float64` is `8804889115230207 * 2^-43`, just
below 1001, while `0.5 * 1000` is exactly 500. -/
theorem mul_examples :
    mul (round false 1001 1000) thousand = finite false 8804889115230207 (-43) ∧
    8804889115230207 < 1001 * 2 ^ 43 ∧
    toInt 0 (mul (round false 1001 1000) thousand) = 1000 ∧
    toInt 0 (mul (round false 5 10) thousand) = 500 ∧
    toInt 0 (mul (round false 253417 1000000) thousand) = 253 := by
  decide

end F64

/-! ## Lemmas on the path functions -/

namespace Filepath

theorem splitSep_ne_nil (x : List Char) : splitSep x ≠ [] := by
  cases x with
  | nil => simp [splitSep]
  | cons c cs =>
    unfold splitSep
    split_ifs
    · simp
    · split <;> simp

theorem splitSep_noSep (x : List Char) : ∀ e ∈ splitSep x, '/' ∉ e := by
  induction x with
  | nil => simp [splitSep]
  | cons c cs ih =>
    unfold splitSep
    split_ifs with hc
    · intro e he
      rcases List.mem_cons.1 he with h | h
      · simp [h]
      · exact ih e h
    · split
      · intro e he
        simp only [List.mem_singleton] at he
        subst he
        simpa using fun h => hc h.symm
      · rename_i e0 es heq
        intro e he
        rcases List.mem_cons.1 he with h | h
        · subst h
          have := ih e0 (by rw [heq]; exact List.mem_cons_self _ _)
          simp only [List.mem_cons, not_or]
          exact ⟨fun h => hc h.symm, this⟩
        · exact ih e (by rw [heq]; exact List.mem_cons_of_mem _ h)

theorem splitSep_of_noSep (a : List Char) (h : '/' ∉ a) : splitSep a = [a] := by
  induction a with
  | nil => rfl
  | cons c cs ih =>
    simp only [List.mem_cons, not_or] at h
    unfold splitSep
    rw [if_neg (fun e => h.1 e.symm), ih h.2]

theorem splitSep_append_sep (x y : List Char) :
    splitSep (x ++ '/' :: y) = splitSep x ++ splitSep y := by
  induction x with
  | nil => simp [splitSep]
  | cons c cs ih =>
    by_cases hc : c = '/'
    · simp [splitSep, hc, ih]
    · rw [List.cons_append, splitSep, if_neg hc, ih, splitSep, if_neg hc]
      cases hs : splitSep cs with
      | nil => exact absurd hs (splitSep_ne_nil cs)
      | cons e es => simp

theorem joinSep_append_singleton (l : List (List Char)) (x : List Char) (h : l ≠ []) :
    joinSep (l ++ [x]) = joinSep l ++ '/' :: x := by
  induction l with
  | nil => exact absurd rfl h
  | cons a as ih =>
    cases as with
    | nil => simp [joinSep]
    | cons b bs =>
      have := ih (by simp)
      simp only [List.cons_append] at this ⊢
      simp [joinSep, this]

theorem splitSep_joinSep (l : List (List Char)) (h : l ≠ []) (hs : ∀ e ∈ l, '/' ∉ e) :
    splitSep (joinSep l) = l := by
  induction l with
  | nil => exact absurd rfl h
  | cons a as ih =>
    cases as with
    | nil => simpa [joinSep] using splitSep_of_noSep a (hs a (List.mem_cons_self _ _))
    | cons b bs =>
      rw [joinSep, splitSep_append_sep, splitSep_of_noSep a (hs a (List.mem_cons_self _ _)),
        ih (by simp) (fun e he => hs e (List.mem_cons_of_mem _ he))]
      rfl

theorem normal_of_all_dotdot (st : List (List Char)) (h : ∀ x ∈ st, x = ['.', '.']) :
    Normal false st := by
  cases st with
  | nil => trivial
  | cons t rest =>
    exact Or.inr
      ⟨h t (List.mem_cons_self _ _), rfl, fun x hx => h x (List.mem_cons_of_mem _ hx)⟩

theorem Normal.tail {r : Bool} {top : List Char} {rest : List (List Char)}
    (h : Normal r (top :: rest)) : Normal r rest := by
  rcases h with h | ⟨_, hr, hall⟩
  · exact h.2
  · subst hr
    exact normal_of_all_dotdot rest hall

theorem Normal.noSep {r : Bool} {st : List (List Char)} (h : Normal r st) :
    ∀ e ∈ st, '/' ∉ e := by
  induction st with
  | nil => simp
  | cons t rest ih =>
    intro e he
    rcases List.mem_cons.1 he with h1 | h1
    · subst h1
      rcases h with h | ⟨ht, _, _⟩
      · exact h.1.2.1
      · rw [ht]; decide
    · exact ih h.tail e h1

theorem normal_cleanStep {r : Bool} {st : List (List Char)} (h : Normal r st)
    (e : List Char) (he : '/' ∉ e) : Normal r (cleanStep r st e) := by
  by_cases h1 : e = [] ∨ e = ['.']
  · unfold cleanStep; rw [if_pos h1]; exact h
  · by_cases h2 : e = ['.', '.']
    · unfold cleanStep
      rw [if_neg h1, if_pos h2]
      cases st with
      | nil =>
        cases r
        · exact Or.inr ⟨h2, rfl, by simp⟩
        · trivial
      | cons top rest =>
        by_cases h3 : top = ['.', '.']
        · simp only [if_pos h3]
          rcases h with h | ⟨_, hr, hall⟩
          · exact absurd h3 h.1.2.2.2
          · refine Or.inr ⟨h2, hr, ?_⟩
            intro x hx
            rcases List.mem_cons.1 hx with hx | hx
            · rw [hx, h3]
            · exact hall x hx
        · simp only [if_neg h3]
          exact h.tail
    · unfold cleanStep
      rw [if_neg h1, if_neg h2]
      simp only [not_or] at h1
      exact Or.inl ⟨⟨h1.1, he, h1.2, h2⟩, h⟩

theorem normal_foldl {r : Bool} (l : List (List Char)) {st : List (List Char)}
    (h : Normal r st) (hl : ∀ e ∈ l, '/' ∉ e) : Normal r (l.foldl (cleanStep r) st) := by
  induction l generalizing st with
  | nil => exact h
  | cons e es ih =>
    rw [List.foldl_cons]
    exact ih (normal_cleanStep h e (hl e (List.mem_cons_self _ _)))
      (fun x hx => hl x (List.mem_cons_of_mem _ hx))

theorem cleanStep_push {r : Bool} {top : List Char} {rest : List (List Char)}
    (h : Normal r (top :: rest)) : cleanStep r rest top = top :: rest := by
  rcases h with h | ⟨ht, hr, hall⟩
  · unfold cleanStep
    rw [if_neg (by simp [h.1.1, h.1.2.2.1]), if_neg h.1.2.2.2]
  · subst ht hr
    unfold cleanStep
    rw [if_neg (by decide), if_pos rfl]
    cases rest with
    | nil => simp
    | cons t ts =>
      simp only
      rw [if_pos (hall t (List.mem_cons_self _ _))]

theorem foldl_cleanStep_reverse {r : Bool} (st : List (List Char)) (h : Normal r st) :
    st.reverse.foldl (cleanStep r) [] = st := by
  induction st with
  | nil => rfl
  | cons top rest ih =>
    rw [List.reverse_cons, List.foldl_append, ih h.tail]
    simp only [List.foldl_cons, List.foldl_nil]
    exact cleanStep_push h

theorem Normal.ne_nil {r : Bool} {st : List (List Char)} (h : Normal r st) :
    ∀ e ∈ st, e ≠ [] := by
  induction st with
  | nil => simp
  | cons t rest ih =>
    intro e he
    rcases List.mem_cons.1 he with h1 | h1
    · subst h1
      rcases h with h | ⟨ht, _, _⟩
      · exact h.1.1
      · rw [ht]; simp
    · exact ih h.tail e h1

theorem joinSep_head (a : List Char) (l : List (List Char)) (ha : a ≠ []) :
    (joinSep (a :: l)).head? = a.head? := by
  cases a with
  | nil => exact absurd rfl ha
  | cons c cs =>
    cases l with
    | nil => rfl
    | cons b bs => rfl

theorem render_head {r : Bool} {st : List (List Char)} (h : Normal r st) :
    decide ((render r st).head? = some '/') = r := by
  cases r with
  | true => simp [render]
  | false =>
    by_cases hst : st = []
    · subst hst; decide
    · have hne : st.reverse ≠ [] := by simpa using hst
      simp only [render, Bool.false_eq_true, if_false, hst]
      cases hr : st.reverse with
      | nil => exact absurd hr hne
      | cons a l =>
        have ha : a ∈ st := by
          have : a ∈ st.reverse := by rw [hr]; exact List.mem_cons_self _ _
          simpa using this
        rw [joinSep_head a l (h.ne_nil a ha)]
        have hs := h.noSep a ha
        cases a with
        | nil => simp
        | cons c cs =>
          simp only [List.mem_cons, not_or] at hs
          simp only [List.head?_cons, Option.some.injEq, decide_eq_false_iff_not]
          exact fun e => hs.1 e.symm

theorem render_ne_nil (r : Bool) (st : List (List Char)) (h : Normal r st) :
    render r st ≠ [] := by
  cases r with
  | true => simp [render]
  | false =>
    by_cases hst : st = []
    · subst hst; simp [render]
    · simp only [render, Bool.false_eq_true, if_false, hst]
      cases hr : st.reverse with
      | nil => simp at hr; exact absurd hr hst
      | cons a l =>
        have ha : a ∈ st := by
          have : a ∈ st.reverse := by rw [hr]; exact List.mem_cons_self _ _
          simpa using this
        intro hj
        have := joinSep_head a l (h.ne_nil a ha)
        rw [hj] at this
        cases a with
        | nil => exact h.ne_nil [] ha rfl
        | cons c cs => simp at this

theorem cleanStep_nil (r : Bool) (st : List (List Char)) : cleanStep r st [] = st := by
  simp [cleanStep]

theorem foldl_splitSep_joinSep_reverse {r : Bool} {st : List (List Char)}
    (h : Normal r st) :
    (splitSep (joinSep st.reverse)).foldl (cleanStep r) [] = st := by
  by_cases hst : st = []
  · subst hst
    simp [joinSep, splitSep, cleanStep]
  · rw [splitSep_joinSep st.reverse (by simpa using hst)
      (fun e he => h.noSep e (by simpa using he))]
    exact foldl_cleanStep_reverse st h

theorem foldl_splitSep_render {r : Bool} {st : List (List Char)} (h : Normal r st) :
    (splitSep (render r st)).foldl (cleanStep r) [] = st := by
  cases r with
  | true =>
    simp only [render, if_true]
    rw [show ('/' :: joinSep st.reverse) = [] ++ '/' :: joinSep st.reverse from rfl,
      splitSep_append_sep, List.foldl_append]
    simpa [splitSep, cleanStep] using foldl_splitSep_joinSep_reverse h
  | false =>
    by_cases hst : st = []
    · subst hst
      simp [render, splitSep, cleanStep]
    · simp only [render, Bool.false_eq_true, if_false, hst]
      exact foldl_splitSep_joinSep_reverse h

theorem cleanChars_render_append {r : Bool} {st : List (List Char)} (h : Normal r st)
    (tail : List Char) :
    cleanChars (render r st ++ '/' :: tail)
      = render r ((splitSep tail).foldl (cleanStep r) st) := by
  have hh : decide ((render r st ++ '/' :: tail).head? = some '/') = r := by
    have := render_head h
    cases hr : render r st with
    | nil => exact absurd hr (render_ne_nil r st h)
    | cons c cs => rw [hr] at this; simpa using this
  unfold cleanChars
  simp only [hh]
  rw [splitSep_append_sep, List.foldl_append, foldl_splitSep_render h]

theorem cleanChars_normal (x : List Char) :
    ∃ r st, Normal r st ∧ cleanChars x = render r st :=
  ⟨decide (x.head? = some '/'), (splitSep x).foldl (cleanStep _) [],
    normal_foldl _ trivial (splitSep_noSep x), rfl⟩

theorem render_push (r : Bool) (st : List (List Char)) (nm : List Char) :
    render r (nm :: st)
      = if st = [] then (if r then '/' :: nm else nm) else render r st ++ '/' :: nm := by
  by_cases hst : st = []
  · subst hst
    cases r <;> simp [render, joinSep]
  · have hne : st.reverse ≠ [] := by simpa using hst
    cases r with
    | true =>
      simp only [render, if_true, List.reverse_cons, if_neg hst]
      rw [joinSep_append_singleton _ _ hne]
      rfl
    | false =>
      simp only [render, Bool.false_eq_true, if_false, List.reverse_cons, if_neg hst]
      rw [if_neg (by simp), joinSep_append_singleton _ _ hne]

theorem dropWhile_append_of_all (p : Char → Bool) (a b : List Char)
    (h : ∀ c ∈ a, p c = true) : (a ++ b).dropWhile p = b.dropWhile p := by
  induction a with
  | nil => rfl
  | cons c cs ih =>
    rw [List.cons_append, List.dropWhile_cons, h c (List.mem_cons_self _ _)]
    exact ih (fun x hx => h x (List.mem_cons_of_mem _ hx))

theorem takeWhile_append_of_all (p : Char → Bool) (a b : List Char)
    (h : ∀ c ∈ a, p c = true) : (a ++ b).takeWhile p = a ++ b.takeWhile p := by
  induction a with
  | nil => rfl
  | cons c cs ih =>
    rw [List.cons_append, List.takeWhile_cons, h c (List.mem_cons_self _ _)]
    simp only [if_true, List.cons_append]
    rw [ih (fun x hx => h x (List.mem_cons_of_mem _ hx))]

theorem dirPrefix_append (x nm : List Char) (h : '/' ∉ nm) :
    dirPrefix (x ++ '/' :: nm) = x ++ ['/'] := by
  unfold dirPrefix
  rw [List.reverse_append, List.reverse_cons, List.append_assoc,
    dropWhile_append_of_all _ nm.reverse _ (by
      intro c hc
      have : c ∈ nm := by simpa using hc
      simpa using fun e : c = '/' => h (e ▸ this))]
  simp

theorem dirPrefix_noSep (nm : List Char) (h : '/' ∉ nm) : dirPrefix nm = [] := by
  unfold dirPrefix
  have := dropWhile_append_of_all (fun c => decide (c ≠ '/')) nm.reverse [] (by
      intro c hc
      have : c ∈ nm := by simpa using hc
      simpa using fun e : c = '/' => h (e ▸ this))
  rw [List.append_nil] at this
  rw [this]
  rfl

theorem lastElem_append (x nm : List Char) (h : '/' ∉ nm) (hne : nm ≠ []) :
    lastElem (x ++ '/' :: nm) = nm := by
  unfold lastElem
  have hall : ∀ c ∈ nm.reverse, (fun c => decide (c ≠ '/')) c = true := by
    intro c hc
    have : c ∈ nm := by simpa using hc
    simpa using fun e : c = '/' => h (e ▸ this)
  rw [List.reverse_append, List.reverse_cons, List.append_assoc]
  cases hr : nm.reverse with
  | nil => simp at hr; exact absurd hr hne
  | cons c cs =>
    have hc : c ≠ '/' := by
      have := hall c (by rw [hr]; exact List.mem_cons_self _ _)
      simpa using this
    rw [List.cons_append, List.dropWhile_cons, if_neg (by simpa using hc), ← List.cons_append,
      ← hr, takeWhile_append_of_all _ _ _ hall]
    simp

theorem lastElem_noSep (nm : List Char) (h : '/' ∉ nm) (hne : nm ≠ []) :
    lastElem nm = nm := by
  unfold lastElem
  have hall : ∀ c ∈ nm.reverse, (fun c => decide (c ≠ '/')) c = true := by
    intro c hc
    have : c ∈ nm := by simpa using hc
    simpa using fun e : c = '/' => h (e ▸ this)
  cases hr : nm.reverse with
  | nil => simp at hr; exact absurd hr hne
  | cons c cs =>
    have hc : c ≠ '/' := by
      have := hall c (by rw [hr]; exact List.mem_cons_self _ _)
      simpa using this
    rw [List.dropWhile_cons, if_neg (by simpa using hc), ← hr]
    have := takeWhile_append_of_all _ nm.reverse [] hall
    rw [List.append_nil] at this
    rw [this]
    simp

theorem lastElem_noSep_mem (x : List Char) : '/' ∉ lastElem x := by
  unfold lastElem
  intro h
  rw [List.mem_reverse] at h
  have := List.mem_takeWhile_imp h
  simp at this

theorem cleanChars_join_name {r : Bool} {st : List (List Char)} (h : Normal r st)
    (nm : List Char) (hn : IsName nm) :
    cleanChars (render r st ++ '/' :: nm) = render r (nm :: st) := by
  rw [cleanChars_render_append h, splitSep_of_noSep nm hn.2.1]
  simp only [List.foldl_cons, List.foldl_nil]
  rw [cleanStep_push (Or.inl ⟨hn, h⟩)]

theorem cleanChars_join_name_sep {r : Bool} {st : List (List Char)} (h : Normal r st)
    (nm : List Char) (hn : IsName nm) :
    cleanChars (render r st ++ '/' :: (nm ++ ['/'])) = render r (nm :: st) := by
  rw [cleanChars_render_append h, splitSep_append_sep, splitSep_of_noSep nm hn.2.1]
  simp only [splitSep, List.singleton_append, List.foldl_cons, List.foldl_nil]
  rw [cleanStep_push (Or.inl ⟨hn, h⟩), cleanStep_nil]

theorem cleanChars_dirPrefix_render_push {r : Bool} {st : List (List Char)}
    (h : Normal r st) (nm : List Char) (hn : IsName nm) :
    cleanChars (dirPrefix (render r (nm :: st))) = render r st := by
  rw [render_push]
  by_cases hst : st = []
  · subst hst
    cases r with
    | true =>
      simp only [if_true]
      rw [show ('/' :: nm) = [] ++ '/' :: nm from rfl, dirPrefix_append _ _ hn.2.1]
      decide
    | false =>
      simp only [if_true, Bool.false_eq_true, if_false]
      rw [dirPrefix_noSep _ hn.2.1]
      decide
  · rw [if_neg hst, dirPrefix_append _ _ hn.2.1,
      show render r st ++ ['/'] = render r st ++ '/' :: [] from rfl,
      cleanChars_render_append h]
    simp [splitSep, cleanStep_nil]

theorem lastElem_render_push (r : Bool) (st : List (List Char))
    (nm : List Char) (hn : IsName nm) :
    lastElem (render r (nm :: st)) = nm := by
  rw [render_push]
  by_cases hst : st = []
  · subst hst
    cases r with
    | true =>
      simp only [if_true]
      rw [show ('/' :: nm) = [] ++ '/' :: nm from rfl, lastElem_append _ _ hn.2.1 hn.1]
    | false =>
      simp only [if_true, Bool.false_eq_true, if_false]
      exact lastElem_noSep _ hn.2.1 hn.1
  · rw [if_neg hst, lastElem_append _ _ hn.2.1 hn.1]

theorem isName_working (b : List Char) (hb : '/' ∉ b) : IsName ("working_".data ++ b) := by
  refine ⟨by simp, ?_, by simp, by simp⟩
  intro h
  rcases List.mem_append.1 h with h | h
  · revert h; decide
  · exact hb h

theorem base_data (p : String) : (Base p).data = ['/'] ∨ '/' ∉ (Base p).data := by
  unfold Base
  by_cases h1 : p = ""
  · rw [if_pos h1]; right; decide
  · rw [if_neg h1]
    by_cases h2 : lastElem p.data = []
    · rw [show (let last := lastElem p.data; if last = [] then "/" else (⟨last⟩ : String))
          = "/" from by simp only [h2, if_true]]
      left; rfl
    · simp only [h2, if_false]; right; exact lastElem_noSep_mem _

theorem base_of_lastElem (q : String) (hq : q ≠ "") (hl : lastElem q.data ≠ []) :
    Base q = ⟨lastElem q.data⟩ := by
  unfold Base
  rw [if_neg hq]
  simp only [hl, if_false]

theorem base_eq_sep_of_data (p : String) (h : (Base p).data = ['/']) : Base p = "/" :=
  String.ext h

theorem dir_ne_empty (p : String) : Dir p ≠ "" := by
  obtain ⟨r, st, hn, he⟩ := cleanChars_normal (dirPrefix p.data)
  intro h
  have : (Dir p).data = [] := by rw [h]
  simp only [Dir] at this
  rw [he] at this
  exact render_ne_nil r st hn this

end Filepath

/-! ## Lemmas on the validation pipeline -/

namespace PingTest

/-- The characters of the output path: the cleaned directory of the input with
the element `working_<base>` added (`working_` when the base is a separator). -/
theorem outputPath_data (p : String) :
    ∃ r st nm, Filepath.Normal r st ∧ Filepath.IsName nm ∧
      (Filepath.Dir p).data = Filepath.render r st ∧
      (outputPath p).data = Filepath.render r (nm :: st) ∧
      ('/' ∉ (Filepath.Base p).data → nm = "working_".data ++ (Filepath.Base p).data) ∧
      ((Filepath.Base p).data = ['/'] → nm = "working_".data) := by
  obtain ⟨r, st, hn, he⟩ := Filepath.cleanChars_normal (Filepath.dirPrefix p.data)
  have hd : (Filepath.Dir p).data = Filepath.render r st := he
  have ho : (outputPath p).data
      = Filepath.cleanChars
          ((Filepath.Dir p).data ++ '/' :: ("working_".data ++ (Filepath.Base p).data)) := by
    simp only [outputPath, Filepath.Join]
    rw [if_pos (Filepath.dir_ne_empty p)]
    simp [Filepath.Clean, Filepath.joinSep]
  rcases Filepath.base_data p with hb | hb
  · refine ⟨r, st, "working_".data, hn, ?_, hd, ?_, ?_, ?_⟩
    · simpa using Filepath.isName_working [] (by simp)
    · rw [ho, hd, hb]
      exact Filepath.cleanChars_join_name_sep hn _
        (by simpa using Filepath.isName_working [] (by simp))
    · intro h; rw [hb] at h; simp at h
    · intro _; rfl
  · refine ⟨r, st, "working_".data ++ (Filepath.Base p).data, hn,
      Filepath.isName_working _ hb, hd, ?_, ?_, ?_⟩
    · rw [ho, hd]
      exact Filepath.cleanChars_join_name hn _ (Filepath.isName_working _ hb)
    · intro _; rfl
    · intro h; rw [h] at hb; simp at hb

theorem outputPath_dir (p : String) : Filepath.Dir (outputPath p) = Filepath.Dir p := by
  obtain ⟨r, st, nm, hn, hnm, hd, ho, _, _⟩ := outputPath_data p
  apply String.ext
  rw [hd]
  show Filepath.cleanChars (Filepath.dirPrefix (outputPath p).data) = _
  rw [ho]
  exact Filepath.cleanChars_dirPrefix_render_push hn nm hnm

theorem outputPath_base (p : String) (h : Filepath.Base p ≠ "/") :
    Filepath.Base (outputPath p) = "working_" ++ Filepath.Base p := by
  obtain ⟨r, st, nm, hn, hnm, hd, ho, hb, _⟩ := outputPath_data p
  have hb' : '/' ∉ (Filepath.Base p).data := by
    rcases Filepath.base_data p with h1 | h1
    · exact absurd (Filepath.base_eq_sep_of_data p h1) h
    · exact h1
  have hl : Filepath.lastElem (outputPath p).data = nm := by
    rw [ho]; exact Filepath.lastElem_render_push r st nm hnm
  have hne : outputPath p ≠ "" := by
    intro e
    have : (outputPath p).data = [] := by rw [e]
    rw [ho] at this
    have hN : Filepath.Normal r (nm :: st) := Or.inl ⟨hnm, hn⟩
    exact Filepath.render_ne_nil r (nm :: st) hN this
  rw [Filepath.base_of_lastElem _ hne (by rw [hl]; exact hnm.1)]
  apply String.ext
  rw [hl, hb hb']
  simp


theorem outputPath_base_of_sep (p : String) (h : Filepath.Base p = "/") :
    Filepath.Base (outputPath p) = "working_" := by
  obtain ⟨r, st, nm, hn, hnm, hd, ho, _, hb⟩ := outputPath_data p
  have hbd : (Filepath.Base p).data = ['/'] := by rw [h]
  have hl : Filepath.lastElem (outputPath p).data = nm := by
    rw [ho]; exact Filepath.lastElem_render_push r st nm hnm
  have hne : outputPath p ≠ "" := by
    intro e
    have : (outputPath p).data = [] := by rw [e]
    rw [ho] at this
    have hN : Filepath.Normal r (nm :: st) := Or.inl ⟨hnm, hn⟩
    exact Filepath.render_ne_nil r (nm :: st) hN this
  rw [Filepath.base_of_lastElem _ hne (by rw [hl]; exact hnm.1)]
  apply String.ext
  rw [hl, hb hbd]

theorem foldl_append_string (l : List String) (acc : String) :
    List.foldl (fun r s => r ++ s) acc l = acc ++ List.foldl (fun r s => r ++ s) "" l := by
  induction l generalizing acc with
  | nil => simp
  | cons x xs ih =>
    rw [List.foldl_cons, ih, List.foldl_cons, ih ("" ++ x)]
    simp [String.append_assoc]

theorem join_cons (x : String) (l : List String) :
    String.join (x :: l) = x ++ String.join l := by
  unfold String.join
  rw [List.foldl_cons, foldl_append_string]
  simp

/-- The lines `main` hands to the writer, for a trial function of the line. -/
theorem mainLoop_pure_writer (f : String → Except String Int) (lines : List String)
    (st : LoopState Unit) :
    (mainLoop (pureTrial f) lines st).writer
      = st.writer ++ String.join
          ((lines.filter (fun l => !isBlank l && succeeded (f l))).map (fun l => l ++ "\n")) := by
  induction lines generalizing st with
  | nil => simp [mainLoop, String.join]
  | cons x xs ih =>
    by_cases hb : TrimSpace x = ""
    · simp [mainLoop, hb, ih, isBlank]
    · cases hf : f x with
      | error e =>
        simp [mainLoop, hb, ih, isBlank, pureTrial, hf, succeeded]
      | ok v =>
        simp [mainLoop, hb, ih, isBlank, pureTrial, hf, succeeded, join_cons,
          String.append_assoc]

theorem mainLoop_pure_working (f : String → Except String Int) (lines : List String)
    (st : LoopState Unit) :
    (mainLoop (pureTrial f) lines st).workingConfigs
      = st.workingConfigs
          + (lines.filter (fun l => !isBlank l && succeeded (f l))).length := by
  induction lines generalizing st with
  | nil => simp [mainLoop]
  | cons x xs ih =>
    by_cases hb : TrimSpace x = ""
    · simp [mainLoop, hb, ih, isBlank]
    · cases hf : f x with
      | error e =>
        simp [mainLoop, hb, ih, isBlank, pureTrial, hf, succeeded]
      | ok v =>
        simp [mainLoop, hb, ih, isBlank, pureTrial, hf, succeeded]
        omega

/-- The loop run with a recording trial: the record grows by the non-blank
lines, in order, and the other variables are those of the run with `test`. -/
theorem mainLoop_logging {σ : Type} (test : σ → String → Except String Int × σ)
    (lines : List String) (st : LoopState σ) (log : List String) :
    (mainLoop (loggingTrial test) lines
        { lineNum := st.lineNum, workingConfigs := st.workingConfigs, writer := st.writer,
          world := (st.world, log) }).world.2
      = log ++ lines.filter (fun l => !isBlank l) ∧
    (mainLoop (loggingTrial test) lines
        { lineNum := st.lineNum, workingConfigs := st.workingConfigs, writer := st.writer,
          world := (st.world, log) }).world.1
      = (mainLoop test lines st).world ∧
    (mainLoop (loggingTrial test) lines
        { lineNum := st.lineNum, workingConfigs := st.workingConfigs, writer := st.writer,
          world := (st.world, log) }).writer
      = (mainLoop test lines st).writer ∧
    (mainLoop (loggingTrial test) lines
        { lineNum := st.lineNum, workingConfigs := st.workingConfigs, writer := st.writer,
          world := (st.world, log) }).workingConfigs
      = (mainLoop test lines st).workingConfigs := by
  induction lines generalizing st log with
  | nil => simp [mainLoop]
  | cons x xs ih =>
    by_cases hb : TrimSpace x = ""
    · have := ih { st with lineNum := st.lineNum + 1 } log
      simpa [mainLoop, hb, isBlank] using this
    · rcases hf : test st.world x with ⟨r, w⟩
      cases r with
      | error e =>
        have := ih { st with lineNum := st.lineNum + 1, world := w } (log ++ [x])
        simpa [mainLoop, hb, isBlank, hf, loggingTrial] using this
      | ok v =>
        have := ih { st with lineNum := st.lineNum + 1, world := w,
                             writer := st.writer ++ (x ++ "\n"),
                             workingConfigs := st.workingConfigs + 1 } (log ++ [x])
        simpa [mainLoop, hb, isBlank, hf, loggingTrial] using this

theorem mainLoop_lineNum {σ : Type} (test : σ → String → Except String Int × σ)
    (lines : List String) (st : LoopState σ) :
    (mainLoop test lines st).lineNum = st.lineNum + lines.length := by
  induction lines generalizing st with
  | nil => simp [mainLoop]
  | cons x xs ih =>
    by_cases hb : TrimSpace x = ""
    · simp [mainLoop, hb, ih]; omega
    · rcases hf : test st.world x with ⟨r, w⟩
      cases r with
      | error e => simp [mainLoop, hb, ih, hf]; omega
      | ok v => simp [mainLoop, hb, ih, hf]; omega

theorem mainLoop_working_le {σ : Type} (test : σ → String → Except String Int × σ)
    (lines : List String) (st : LoopState σ) :
    (mainLoop test lines st).workingConfigs
      ≤ st.workingConfigs + (lines.filter (fun l => !isBlank l)).length := by
  induction lines generalizing st with
  | nil => simp [mainLoop]
  | cons x xs ih =>
    by_cases hb : TrimSpace x = ""
    · simpa [mainLoop, hb, isBlank] using ih _
    · rcases hf : test st.world x with ⟨r, w⟩
      cases r with
      | error e =>
        have := ih { st with lineNum := st.lineNum + 1, world := w }
        simp [mainLoop, hb, isBlank, hf] at this ⊢
        omega
      | ok v =>
        have := ih { st with lineNum := st.lineNum + 1, world := w,
                             writer := st.writer ++ (x ++ "\n"),
                             workingConfigs := st.workingConfigs + 1 }
        simp [mainLoop, hb, isBlank, hf] at this ⊢
        omega

/-- The summary of `main`: the "configs tested" number is the number of
physical lines, and the working count is at most the number of non-blank
lines. -/
theorem main_counts {σ : Type} (test : σ → String → Except String Int × σ) (w : σ)
    (path : String) (lines : List String) :
    (main test w path lines).testedCount = lines.length ∧
    (main test w path lines).workingCount ≤ (lines.filter (fun l => !isBlank l)).length ∧
    (lines.filter (fun l => !isBlank l)).length ≤ (main test w path lines).testedCount := by
  refine ⟨?_, ?_, ?_⟩
  · simp [main, mainLoop_lineNum]
  · have := mainLoop_working_le test lines
      { lineNum := 0, workingConfigs := 0, writer := "", world := w }
    simpa [main] using this
  · simp only [main, mainLoop_lineNum, Nat.zero_add]
    exact List.length_filter_le _ _

/-- The early-exit branch of `testXrayConfig` is never taken: the command's
`ProcessState` is still `nil` when it is tested. -/
theorem exitedEarly_after_start (env : Env) (configFile : String) (s : Sys) (cmd : Cmd)
    (s1 : Sys)
    (h : (CommandContext xrayPath ["-c", configFile]).Start env s = (.ok cmd, s1)) :
    cmd.exitedEarly = false := by
  unfold Cmd.Start at h
  cases hs : env.startErr with
  | some e => simp [hs] at h
  | none =>
    simp only [hs, Prod.mk.injEq, Except.ok.injEq] at h
    rw [← h.1]
    rfl

/-- Whether the process exited during the grace period has no influence on
the result of the trial. -/
theorem testXrayConfig_ignores_early_exit (env : Env) (b : Bool) (s : Sys) (line : String) :
    (testXrayConfig { env with exitedInGrace := b } s line).1 = (testXrayConfig env s line).1 := by
  simp only [testXrayConfig, createTempConfig, testXrayConfigBody, Cmd.Start]
  cases env.writeFileErr <;> cases env.stderrPipeErr <;> cases env.startErr <;>
    simp only [Cmd.exitedEarly, CommandContext, Bool.false_eq_true, if_false]
  cases env.probe with
  | error e => rfl
  | ok out =>
    simp only
    cases ParseFloat env.parseFloatOther (TrimSpace out) <;> rfl

/-- The deferred calls leave the context cancelled and the temporary file
removed, whatever the body returned. -/
theorem deferred_calls (p : String) (s : Sys) :
    (osRemove p (cancel s)).ctxCancelled = true ∧
    (osRemove p (cancel s)).files p = none ∧
    ((osRemove p (cancel s)).phase = Phase.NotStarted ∨
      (osRemove p (cancel s)).phase = Phase.Stopped) := by
  refine ⟨rfl, by simp [osRemove], ?_⟩
  simp only [osRemove, cancel]
  by_cases h : s.phase = Phase.NotStarted
  · simp [h]
  · simp [h]

/-- The body of a trial leaves the file system as it is. -/
theorem testXrayConfigBody_files (env : Env) (p : String) (s : Sys) :
    (testXrayConfigBody env p s).2.files = s.files := by
  simp only [testXrayConfigBody, Cmd.Start]
  cases env.stderrPipeErr <;> cases env.startErr <;>
    simp only [Cmd.exitedEarly, CommandContext, Bool.false_eq_true, if_false]
  cases env.probe with
  | error e => rfl
  | ok out =>
    simp only
    cases ParseFloat env.parseFloatOther (TrimSpace out) <;> rfl

/-- The body of a trial whose process was started ends in a phase other than
`NotStarted`. -/
theorem testXrayConfigBody_phase (env : Env) (p : String) (s : Sys)
    (h2 : env.stderrPipeErr = none) (h3 : env.startErr = none) :
    (testXrayConfigBody env p s).2.phase ≠ Phase.NotStarted := by
  simp only [testXrayConfigBody, Cmd.Start, h2, h3, Cmd.exitedEarly, CommandContext,
    Bool.false_eq_true, if_false]
  cases env.probe with
  | error e => cases hg : env.exitedInGrace <;> simp [cancel, sleepGrace, hg]
  | ok out =>
    simp only
    cases ParseFloat env.parseFloatOther (TrimSpace out) <;>
      cases hg : env.exitedInGrace <;> simp [cancel, sleepGrace, hg]

/-- The file system a trial leaves when the temporary file was written: the
one before the trial with the temporary path removed. -/
theorem testXrayConfig_files (env : Env) (s : Sys) (line : String)
    (h : env.writeFileErr = none) :
    (testXrayConfig env s line).2.files
      = fun q => if q = tempConfigPath env then none else s.files q := by
  simp only [testXrayConfig, createTempConfig, h, tempConfigPath]
  funext q
  simp only [osRemove, cancel, testXrayConfigBody_files, withCancel, osWriteFile]
  by_cases hq : q = Filepath.Join [tempConfigDir, "config_" ++ toString env.now ++ ".json"]
  · simp [hq]
  · simp [hq]

/-- The state a trial leaves when its process was started: the context is
cancelled and the process stopped. -/
theorem testXrayConfig_started (env : Env) (s : Sys) (line : String)
    (h : processStarted env) :
    (testXrayConfig env s line).2.ctxCancelled = true ∧
    (testXrayConfig env s line).2.phase = Phase.Stopped := by
  obtain ⟨h1, h2, h3⟩ := h
  simp only [testXrayConfig, createTempConfig, h1]
  refine ⟨rfl, ?_⟩
  simp only [osRemove, cancel]
  rw [if_neg (testXrayConfigBody_phase env _ _ h2 h3)]

end PingTest

/-! ## The claims -/

namespace PingTest

/-- C1: for a trial function of the config line, the output file of `main`
holds exactly the input lines that are not blank after trimming and whose trial
succeeded, each verbatim and followed by a newline, in input order; these lines
are a subsequence of the input, and each occurs as often as in the input. -/
theorem main_output_verbatim_in_order (f : String → Except String Int) (path : String)
    (lines : List String) :
    (main (pureTrial f) () path lines).outputFile
      = String.join
          ((lines.filter (fun l => !isBlank l && succeeded (f l))).map (fun l => l ++ "\n")) ∧
    (lines.filter (fun l => !isBlank l && succeeded (f l))).Sublist lines ∧
    (∀ l, (lines.filter (fun l => !isBlank l && succeeded (f l))).count l
        = if (!isBlank l && succeeded (f l)) = true then lines.count l else 0) ∧
    (main (pureTrial f) () path lines).workingCount
      = (lines.filter (fun l => !isBlank l && succeeded (f l))).length := by
  refine ⟨?_, List.filter_sublist _, ?_, ?_⟩
  · simp [main, mainLoop_pure_writer]
  · intro l
    by_cases h : (!isBlank l && succeeded (f l)) = true
    · rw [if_pos h]
      exact List.count_filter h
    · rw [if_neg h]
      apply List.count_eq_zero_of_not_mem
      intro hm
      exact h (List.mem_filter.1 hm).2
  · simp [main, mainLoop_pure_working]

/-- C2: whatever the trials return and whatever state they act on, when every
call of `testXrayConfig` by the loop of `main` is recorded, the recorded config
lines are exactly the non-blank input lines, each once and in input order; the
loop reads every input line, and recording changes neither the state the trials
leave nor the output file nor the working count. -/
theorem main_tries_each_nonblank_line_once {σ : Type}
    (test : σ → String → Except String Int × σ) (w : σ) (path : String)
    (lines : List String) :
    (main (loggingTrial test) (w, []) path lines).world.2
      = lines.filter (fun l => !isBlank l) ∧
    (main (loggingTrial test) (w, []) path lines).testedCount = lines.length ∧
    (main (loggingTrial test) (w, []) path lines).world.1 = (main test w path lines).world ∧
    (main (loggingTrial test) (w, []) path lines).outputFile
      = (main test w path lines).outputFile ∧
    (main (loggingTrial test) (w, []) path lines).workingCount
      = (main test w path lines).workingCount := by
  have h := mainLoop_logging test lines
    { lineNum := 0, workingConfigs := 0, writer := "", world := w } []
  refine ⟨?_, ?_, ?_, ?_, ?_⟩
  · simpa [main] using h.1
  · simp [main, mainLoop_lineNum]
  · simpa [main] using h.2.1
  · simpa [main] using h.2.2.1
  · simpa [main] using h.2.2.2

/-- C3: a trial whose proxy process starts, exits within the grace period with
diagnostics on its error stream, and whose probe succeeds in 0.5 s returns the
latency 500 and no error: the candidate is classified working. -/
theorem testXrayConfig_early_exit_classified_working :
    (testXrayConfig earlyExitEnv emptySys "not a config").1 = .ok 500 ∧
    (testXrayConfig earlyExitEnv emptySys "not a config").1
      ≠ .error ("Xray exited early: " ++ earlyExitEnv.stderrOutput) := by
  decide

/-- C4: on the input lines `A`, blank, `B`, `A` the "configs tested" number of
the summary is 4, while 3 lines are not blank. -/
theorem main_tested_count_includes_blank_lines :
    (main (pureTrial (fun _ => .ok 100)) () "configs.txt" ["A", "", "B", "A"]).testedCount = 4 ∧
    (["A", "", "B", "A"].filter (fun l => !isBlank l)).length = 3 ∧
    summaryLine (main (pureTrial (fun _ => .ok 100)) () "configs.txt" ["A", "", "B", "A"])
      = "Testing complete: 4 configs tested, 3 working configs\n" := by
  decide

/-- C5: when `createTempConfig` has written the temporary file of a trial, the
file does not exist when `testXrayConfig` returns, every other path holds what
it held before the trial, and the file system is the one before the trial when
that path did not exist before. -/
theorem testXrayConfig_removes_temp_file (env : Env) (s : Sys) (line : String)
    (h : env.writeFileErr = none) :
    (createTempConfig env s line).1 = .ok (tempConfigPath env) ∧
    (createTempConfig env s line).2.files (tempConfigPath env) = some line ∧
    (testXrayConfig env s line).2.files (tempConfigPath env) = none ∧
    (∀ q, q ≠ tempConfigPath env → (testXrayConfig env s line).2.files q = s.files q) ∧
    (s.files (tempConfigPath env) = none → (testXrayConfig env s line).2.files = s.files) := by
  rw [testXrayConfig_files env s line h]
  refine ⟨?_, ?_, ?_, ?_, ?_⟩
  · simp [createTempConfig, h, tempConfigPath]
  · simp [createTempConfig, h, tempConfigPath, osWriteFile]
  · simp
  · intro q hq; simp [hq]
  · intro hp
    funext q
    by_cases hq : q = tempConfigPath env
    · simp [hq, hp]
    · simp [hq]

/-- Witness of C5: a successful trial on an empty file system. -/
theorem testXrayConfig_removes_temp_file_witness :
    latencyEnv.writeFileErr = none ∧
    emptySys.files (tempConfigPath latencyEnv) = none ∧
    (testXrayConfig latencyEnv emptySys "cfg").2.files (tempConfigPath latencyEnv) = none ∧
    (testXrayConfig latencyEnv emptySys "cfg").2.files = emptySys.files :=
  ⟨rfl, rfl,
    (testXrayConfig_removes_temp_file latencyEnv emptySys "cfg" rfl).2.2.1,
    (testXrayConfig_removes_temp_file latencyEnv emptySys "cfg" rfl).2.2.2.2 rfl⟩

/-- C6: on every return of `testXrayConfig` after the proxy process was
started, cancellation of the context of the process has been requested and the
trial is in the phase `Stopped`. -/
theorem testXrayConfig_cancels_started_process (env : Env) (s : Sys) (line : String)
    (h : processStarted env) :
    (testXrayConfig env s line).2.ctxCancelled = true ∧
    (testXrayConfig env s line).2.phase = Phase.Stopped :=
  testXrayConfig_started env s line h

/-- Witness of C6: a trial whose process exits during the grace period. -/
theorem testXrayConfig_cancels_started_process_witness :
    processStarted earlyExitEnv ∧
    (testXrayConfig earlyExitEnv emptySys "cfg").2.ctxCancelled = true ∧
    (testXrayConfig earlyExitEnv emptySys "cfg").2.phase = Phase.Stopped :=
  ⟨⟨rfl, rfl, rfl⟩,
    testXrayConfig_cancels_started_process earlyExitEnv emptySys "cfg" ⟨rfl, rfl, rfl⟩⟩

/-- C7: when curl prints `1.001` (1.001 s, that is 1001 ms) the latency
`testXrayConfig` returns is 1000. -/
theorem testXrayConfig_latency_1001_truncated_to_1000 :
    (testXrayConfig latencyEnv emptySys "cfg").1 = .ok 1000 ∧
    (testXrayConfig latencyEnv emptySys "cfg").1 ≠ .ok 1001 := by
  decide

/-- C8 as stated, refuted: for the input path `/` the file name of the output
path is `working_`, which is not the base name `/` of the input prefixed with
`working_`. -/
theorem outputPath_separator_path_not_prefixed :
    outputPath "/" = "/working_" ∧ Filepath.Base "/" = "/" ∧
    Filepath.Base (outputPath "/") = "working_" ∧
    Filepath.Base (outputPath "/") ≠ "working_" ++ Filepath.Base "/" := by
  decide

/-- C8, amended: for every input path and every run, the output path `main`
computes is `Join(Dir(input), "working_" + Base(input))`, so it depends on the
input path only; its directory is the directory of the input; its file name is
the base name of the input prefixed with `working_` when that base name is not
the separator, and is `working_` when it is (an input made of separators
only). -/
theorem outputPath_same_directory_prefixed (p : String) :
    (∀ (σ : Type) (test : σ → String → Except String Int × σ) (w : σ)
        (lines : List String),
      (main test w p lines).outputPath
        = Filepath.Join [Filepath.Dir p, "working_" ++ Filepath.Base p]) ∧
    Filepath.Dir (outputPath p) = Filepath.Dir p ∧
    (Filepath.Base p ≠ "/" →
      Filepath.Base (outputPath p) = "working_" ++ Filepath.Base p) ∧
    (Filepath.Base p = "/" → Filepath.Base (outputPath p) = "working_") :=
  ⟨fun _ _ _ _ => rfl, outputPath_dir p, outputPath_base p, outputPath_base_of_sep p⟩

/-- Witness of C8: the input path `dir/configs.txt`. -/
theorem outputPath_same_directory_prefixed_witness :
    Filepath.Base "dir/configs.txt" ≠ "/" ∧
    outputPath "dir/configs.txt" = "dir/working_configs.txt" ∧
    Filepath.Dir (outputPath "dir/configs.txt") = Filepath.Dir "dir/configs.txt" ∧
    Filepath.Base (outputPath "dir/configs.txt")
      = "working_" ++ Filepath.Base "dir/configs.txt" :=
  ⟨by decide, by decide,
    (outputPath_same_directory_prefixed "dir/configs.txt").2.1,
    (outputPath_same_directory_prefixed "dir/configs.txt").2.2.1 (by decide)⟩

end PingTest

namespace Duplicates

/-- C9: the lines `removeDuplicates` writes contain no line twice, contain
exactly the lines that occur in the input, are the subsequence of the input
that keeps the first occurrence of each distinct line, are at most as many as
the input lines, and de-duplicating them again changes nothing; the file holds
each of them followed by a newline. -/
theorem removeDuplicates_first_occurrences (lines : List String) :
    (removeDuplicates lines).Nodup ∧
    (∀ l, l ∈ removeDuplicates lines ↔ l ∈ lines) ∧
    removeDuplicates lines = firstOccurrences lines ∧
    (removeDuplicates lines).Sublist lines ∧
    (removeDuplicates lines).length ≤ lines.length ∧
    removeDuplicates (removeDuplicates lines) = removeDuplicates lines ∧
    removeDuplicatesFile lines
      = String.join ((firstOccurrences lines).map (fun line => line ++ "\n")) := by
  have e := removeDuplicates_eq lines
  refine ⟨?_, ?_, ?_, ?_, ?_, ?_, ?_⟩
  · rw [e]; exact nodup_firstOccFrom _ _
  · intro l; rw [e, mem_firstOccFrom]; simp
  · rw [e, firstOccurrences_eq]
  · rw [e]; exact sublist_firstOccFrom _ _
  · rw [e]; exact (sublist_firstOccFrom _ _).length_le
  · rw [removeDuplicates_eq (removeDuplicates lines), e]
    exact firstOccFrom_of_nodup _ _ (by simp) (nodup_firstOccFrom _ _)
  · rw [removeDuplicatesFile, e, firstOccurrences_eq]

/-- C10: `findDuplicates` prints one report for each distinct line that occurs
more than once and none for the other lines, in the order of the first
occurrences of the lines, and the count of a report is the number of
occurrences of its line, which is at least 2. -/
theorem findDuplicates_reports (lines : List String) :
    findDuplicates lines
      = ((firstOccurrences lines).filter (fun l => decide (1 < lines.count l))).map
          (fun l => ⟨l, lines.count l⟩) ∧
    ((findDuplicates lines).map Report.line).Nodup ∧
    (∀ l, l ∈ (findDuplicates lines).map Report.line ↔ 1 < lines.count l) ∧
    (∀ r ∈ findDuplicates lines, r.count = lines.count r.line ∧ 2 ≤ r.count) := by
  have e : findDuplicates lines
      = ((firstOccFrom [] lines).filter (fun l => decide (1 < lines.count l))).map
          (fun l => ⟨l, lines.count l⟩) := by
    unfold findDuplicates
    rw [findDuplicatesLoop_eq lines lines _ [] [] BoolMap.tracks_make]
    simp
  have hl : (findDuplicates lines).map Report.line
      = (firstOccFrom [] lines).filter (fun l => decide (1 < lines.count l)) := by
    rw [e, List.map_map]
    exact List.map_id _
  refine ⟨?_, ?_, ?_, ?_⟩
  · rw [e, firstOccurrences_eq]
  · rw [hl]; exact (nodup_firstOccFrom _ _).filter _
  · intro l
    rw [hl, List.mem_filter, mem_firstOccFrom]
    simp only [List.not_mem_nil, not_false_eq_true, and_true, decide_eq_true_eq]
    constructor
    · exact fun h => h.2
    · intro h
      exact ⟨List.count_pos_iff.1 (by omega), h⟩
  · intro r hr
    rw [e, List.mem_map] at hr
    obtain ⟨l, hl1, rfl⟩ := hr
    rw [List.mem_filter] at hl1
    have := hl1.2
    simp only [decide_eq_true_eq] at this
    exact ⟨rfl, this⟩

end Duplicates

end PublicConfig
